import Mathlib

/-!
Verification development for the image-to-PDF processor (`src/main.py`).

The core under study is the page-composition and text-overlay engine:
* `wrap_text` (main.py:1181) — greedy word wrapping with width measurement;
* `create_basic_pdf` (main.py:801) — image deck → new PDF, one page per image;
* `add_text_to_pdf` (main.py:1007) — overlay a 100pt header band with wrapped
  community text and a page caption onto every page of an existing PDF;
* `annotate_pdfs_action` (main.py:960) — batch driver for annotation;
* the scaling computation (main.py:817-826).

Text is modelled as `List Char`; Python's float arithmetic is modelled with
exact rationals `ℚ`; the width-measuring callback (`canvas.stringWidth` for
Helvetica 12) is an abstract parameter `wf : List Char → ℚ`, since the wrapping
code treats it as a black box.
-/

namespace ImgPdf

/-- Python whitespace characters recognised by `str.split()` / `str.strip()`. -/
def isPyWs (c : Char) : Bool :=
  c = ' ' || c = '\t' || c = '\n' || c = '\r' || c = '\x0b' || c = '\x0c'

/-- Split a character list at every character satisfying `p`, keeping empty
pieces — the semantics of Python's `str.split(sep)` for a one-character
separator (with `p` matching exactly that character).  Always returns at least
one piece: `splitBy p [] = [[]]`, as `"".split(sep) == ['']` in Python. -/
def splitBy (p : Char → Bool) : List Char → List (List Char)
  | [] => [[]]
  | c :: cs =>
    if p c then
      [] :: splitBy p cs
    else
      match splitBy p cs with
      | [] => [[c]]
      | h :: t => (c :: h) :: t

/-- Python's `str.strip()`: drop leading and trailing whitespace. -/
def pyStrip (s : List Char) : List Char :=
  ((s.dropWhile isPyWs).reverse.dropWhile isPyWs).reverse

/-- Python's argument-less `str.split()`: split on whitespace runs, dropping
empty pieces. -/
def pyWords (s : List Char) : List (List Char) :=
  (splitBy isPyWs s).filter (fun w => w ≠ [])

/-- `current_line + " " + word if current_line else word` (main.py:1199). -/
def joinWord (cur w : List Char) : List Char :=
  if cur = [] then w else cur ++ ' ' :: w

/-- The inner greedy loop of `wrap_text` (main.py:1198-1210): accumulate words
into `cur`; a word joins the current line when the measured width of the joined
line is still `≤ maxW`, otherwise the current line (if non-empty) is flushed and
the word starts a new line; the final partial line is flushed at the end. -/
def wrapWords (wf : List Char → ℚ) (maxW : ℚ) : List (List Char) → List Char → List (List Char)
  | [], cur => if cur = [] then [] else [cur]
  | w :: ws, cur =>
    let t := joinWord cur w
    if wf t ≤ maxW then
      wrapWords wf maxW ws t
    else if cur = [] then
      wrapWords wf maxW ws w
    else
      cur :: wrapWords wf maxW ws w

/-- The outer loop of `wrap_text` (main.py:1184-1212): paragraphs are the
pieces of the text split on newline; a paragraph that is empty after stripping
contributes the gap marker `[]` (Python `""`); other paragraphs are wrapped.
The `acc` parameter is Python's `all_lines` accumulator. -/
def wrapLoop (wf : List Char → ℚ) (maxW : ℚ) : List (List Char) → List (List Char) → List (List Char)
  | [], acc => acc
  | p :: ps, acc =>
    let p' := pyStrip p
    if p' = [] then
      wrapLoop wf maxW ps (acc ++ [[]])
    else
      wrapLoop wf maxW ps (acc ++ wrapWords wf maxW (pyWords p') [])

/-- `ImageToPDFApp.wrap_text` (main.py:1181-1212). -/
def wrap_text (wf : List Char → ℚ) (maxW : ℚ) (text : List Char) : List (List Char) :=
  wrapLoop wf maxW (splitBy (fun c => c = '\n') text) []

/-! ### Page geometry and scaling (main.py:801-842) -/

/-- `letter` page size from reportlab: 612×792 points. -/
def pageW : ℚ := 612

/-- Letter page height in points. -/
def pageH : ℚ := 792

/-- `text_area_height = 100` (main.py:1019): the reserved header band. -/
def bandH : ℚ := 100

/-- An image as seen at main.py:814 (`img.size` after orientation correction
and RGB conversion): decoded pixel dimensions. -/
structure Img where
  w : ℚ
  h : ℚ
deriving DecidableEq, Repr

/-- Size and position of the drawn image. -/
structure Placement where
  scale : ℚ
  fw : ℚ
  fh : ℚ
  x : ℚ
  y : ℚ
deriving DecidableEq, Repr

/-- The scaling/centering computation of main.py:817-826 against a drawable
rectangle `dw × dh`: uniform scale `min(dw/iw, dh/ih)`, scaled size
`iw*scale × ih*scale`, offsets centering the scaled image. -/
def computePlacement (dw dh iw ih : ℚ) : Placement :=
  let width_scale := dw / iw
  let height_scale := dh / ih
  let scale := min width_scale height_scale
  let final_img_width := iw * scale
  let final_img_height := ih * scale
  ⟨scale, final_img_width, final_img_height,
    (dw - final_img_width) / 2, (dh - final_img_height) / 2⟩

/-! ### Canvas model (reportlab as used by the code)

A reportlab canvas is modelled by its list of finished pages plus the current
page, a page being the list of drawing operations issued on it.  `showPage`
closes the current page; `save` first closes the current page if it holds any
content ("If there is current data a ShowPage is executed automatically") and
then emits the page list. -/

/-- One drawing operation issued on a canvas. -/
inductive DrawOp
  /-- `c.drawImage(path, x, y, width=w, height=h)` -/
  | image (x y w h : ℚ)
  /-- `canvas.rect(x, y, w, h, fill=1, stroke=0)` -/
  | rect (x y w h : ℚ)
  /-- `canvas.drawString(x, y, s)` -/
  | drawString (x y : ℚ) (s : List Char)
  /-- `canvas.setFont(name, size)` -/
  | setFont (name : List Char) (size : ℚ)
  /-- `canvas.setFillColor(c)`; `true` = white, `false` = black -/
  | setFillColor (isWhite : Bool)
deriving DecidableEq, Repr

/-- Is this operation a text draw? -/
def DrawOp.isText : DrawOp → Bool
  | .drawString _ _ _ => true
  | _ => false

/-- Canvas state: finished pages and the operations of the current page. -/
structure CState where
  pages : List (List DrawOp)
  cur : List DrawOp
deriving DecidableEq, Repr

/-- Issue one drawing operation on the current page. -/
def emitOp (st : CState) (op : DrawOp) : CState :=
  { st with cur := st.cur ++ [op] }

/-- `canvas.showPage()`: close the current page. -/
def showPageC (st : CState) : CState :=
  ⟨st.pages ++ [st.cur], []⟩

/-- `canvas.save()`: a final `showPage` happens automatically when the current
page holds content; the document is the finished page list. -/
def saveCanvas (st : CState) : List (List DrawOp) :=
  if st.cur = [] then st.pages else st.pages ++ [st.cur]

/-- The image-drawing operation issued for one image in `create_basic_pdf`
(main.py:817-835): placement against the full 612×792 page. -/
def imageOp (im : Img) : DrawOp :=
  let p := computePlacement pageW pageH im.w im.h
  .image p.x p.y p.fw p.fh

/-- The page loop of `create_basic_pdf` (main.py:806-840): draw each image,
and `showPage` after every image except the last. -/
def buildLoop : List Img → CState → CState
  | [], st => st
  | [im], st => emitOp st (imageOp im)
  | im :: rest, st => buildLoop rest (showPageC (emitOp st (imageOp im)))

/-- `ImageToPDFApp.create_basic_pdf` (main.py:801-842), returning the pages of
the produced document. -/
def create_basic_pdf (imgs : List Img) : List (List DrawOp) :=
  saveCanvas (buildLoop imgs ⟨[], []⟩)

/-! ### Annotation pipeline (`add_text_to_pdf`, main.py:1007-1059)

An existing page's prior content is abstract (`PageC`); annotation pairs it
with the overlay operations merged onto it (`page.merge_page(overlay)` keeps
the original content and adds the overlay's). -/

/-- Abstract content of a pre-existing PDF page. -/
abbrev PageC := ℕ

/-- The caption string `f"Page {page_num+1} of {len(reader.pages)}"`
(main.py:1045), `i` being the 0-based page index. -/
def pageCaption (i total : ℕ) : List Char :=
  ("Page " ++ Nat.repr (i + 1) ++ " of " ++ Nat.repr total).data

/-- The text-line loop of main.py:1035-1041: draw each wrapped line at
`x = 10`, moving the cursor down 8pt for a gap marker and 15pt for a line. -/
def drawLines : List (List Char) → ℚ → List DrawOp
  | [], _ => []
  | l :: ls, y =>
    if l = [] then drawLines ls (y - 8)
    else .drawString 10 y l :: drawLines ls (y - 15)

/-- The overlay canvas built for page `i` of `total` (main.py:1022-1047):
white 100pt band across the top, community text wrapped to width
`page_width - 20` in Helvetica 12, and the page caption in Helvetica 8. -/
def overlayFor (wf : List Char → ℚ) (text : List Char) (i total : ℕ) : List DrawOp :=
  [.setFillColor true,
   .rect 0 (pageH - bandH) pageW bandH,
   .setFillColor false,
   .setFont "Helvetica".data 12]
  ++ drawLines (wrap_text wf (pageW - 20) text) (pageH - 20)
  ++ [.setFont "Helvetica".data 8,
      .drawString (pageW - 80) (pageH - 15) (pageCaption i total)]

/-- An output page of annotation: original content plus merged overlay. -/
abbrev MergedPage := PageC × List DrawOp

/-- The page loop of `add_text_to_pdf` (main.py:1021-1055): each input page,
in order, is merged with its overlay and appended to the writer. -/
def annotateLoop (wf : List Char → ℚ) (text : List Char) (total : ℕ) :
    ℕ → List PageC → List MergedPage
  | _, [] => []
  | i, p :: ps => (p, overlayFor wf text i total) :: annotateLoop wf text total (i + 1) ps

/-- `ImageToPDFApp.add_text_to_pdf` (main.py:1007-1059) on an already-parsed
input document (the `reader.pages` list). -/
def add_text_to_pdf (wf : List Char → ℚ) (text : List Char) (pages : List PageC) :
    List MergedPage :=
  annotateLoop wf text pages.length 0 pages

/-! ### Batch annotation (`annotate_pdfs_action`, main.py:960-1005) -/

/-- One input of the batch: its file name and what `PdfReader` makes of it —
`some pages` when it parses as a paginated document, `none` when it raises. -/
structure PdfInput where
  name : List Char
  parse : Option (List PageC)
deriving DecidableEq, Repr

/-- The batch loop of main.py:980-993: each input is attempted; on success the
output file (named like the input) is written and the success counter grows;
on failure the input is skipped and the loop continues.  Returns the success
count and the written files in order. -/
def batchLoop (wf : List Char → ℚ) (text : List Char) :
    List PdfInput → ℕ → List (List Char × List MergedPage) →
    ℕ × List (List Char × List MergedPage)
  | [], n, acc => (n, acc)
  | f :: fs, n, acc =>
    match f.parse with
    | some pages => batchLoop wf text fs (n + 1) (acc ++ [(f.name, add_text_to_pdf wf text pages)])
    | none => batchLoop wf text fs n acc

/-- `ImageToPDFApp.annotate_pdfs_action` (main.py:960-1005): the whole batch;
the first component is the reported `success_count`, the status line reports
it against `len(self.annotate_pdfs)`. -/
def annotate_pdfs_action (wf : List Char → ℚ) (text : List Char) (inputs : List PdfInput) :
    ℕ × List (List Char × List MergedPage) :=
  batchLoop wf text inputs 0 []

/-! ### File-system model for the annotate write path

Paths are (directory, file name); the store maps a path to the file value at
it.  `add_text_to_pdf` reads `input_pdf_path` first (`PdfReader`, main.py:1015)
and opens `output_pdf_path` for writing only at the very end (main.py:1058),
where `output_pdf_path = output_dir / input_file_name` (main.py:984-985). -/

/-- A file path: directory and file name. -/
abbrev FPath := List Char × List Char

/-- A file's bytes, abstracted: a source PDF parsing to its pages, a corrupt
file, or a freshly serialized annotated document. -/
inductive FileVal
  | pdfSource (pages : List PageC)
  | corrupt
  | annotated (doc : List MergedPage)
deriving DecidableEq, Repr

/-- What `PdfReader` makes of a file's bytes. -/
def parseFile : Option FileVal → Option (List PageC)
  | some (.pdfSource ps) => some ps
  | some (.annotated doc) => some (doc.map Prod.fst)
  | _ => none

/-- One batch item at file-system level (main.py:983-988 and 1057-1059): the
output path is the chosen output directory plus the input's own file name; on
parse success the annotated bytes are written there, on failure nothing is
written. -/
def annotateFileStep (wf : List Char → ℚ) (text : List Char)
    (fs : FPath → Option FileVal) (inPath : FPath) (outDir : List Char) :
    FPath → Option FileVal :=
  let outPath : FPath := (outDir, inPath.2)
  match parseFile (fs inPath) with
  | some pages =>
      fun p => if p = outPath then some (.annotated (add_text_to_pdf wf text pages)) else fs p
  | none => fs

/-! ### Temporary-file lifecycle (main.py:828-837)

`NamedTemporaryFile(delete=False)` creates the temp file, `img.save` fills it,
`c.drawImage` runs inside `try:` and `os.unlink` in `finally:`, so the unlink
happens whether or not the draw raises.  The state is the set (list) of
existing temp files; the draw itself touches no files and may fail. -/

/-- The temp-file create / draw-in-try / unlink-in-finally block for one
image: returns the resulting temp-file list and the draw outcome, `drawOk`
saying whether `c.drawImage` succeeds on this image. -/
def drawImageStep (drawOk : Bool) (t : ℕ) (tmps : List ℕ) :
    List ℕ × Except (List Char) Unit :=
  let tmps' := tmps ++ [t]
  let res : Except (List Char) Unit :=
    if drawOk then .ok () else .error "drawImage failed".data
  (tmps'.erase t, res)

/-- A concrete width measure used to instantiate witnesses: one point per
character (stands in for a concrete `stringWidth` table). -/
def wfLen (s : List Char) : ℚ := s.length

/-! ## Helper lemmas about the wrapping loops -/

/-- The greedy loop never emits an empty line: flushes are guarded by
`if current_line:` and the final flush by the same check (main.py:1205-1210). -/
theorem wrapWords_ne_nil (wf : List Char → ℚ) (maxW : ℚ) :
    ∀ ws cur l, l ∈ wrapWords wf maxW ws cur → l ≠ [] := by
  intro ws
  induction ws with
  | nil =>
    intro cur l hl
    by_cases h : cur = [] <;> simp [wrapWords, h] at hl
    exact hl ▸ h
  | cons w ws ih =>
    intro cur l hl
    rw [wrapWords] at hl
    by_cases h2 : cur = []
    · subst h2
      rw [show joinWord [] w = w from by simp [joinWord]] at hl
      by_cases h1 : wf w ≤ maxW
      · exact ih _ _ (by simpa [h1] using hl)
      · exact ih _ _ (by simpa [h1] using hl)
    · by_cases h1 : wf (joinWord cur w) ≤ maxW
      · exact ih _ _ (by simpa [h1] using hl)
      · simp only [if_neg h1, if_neg h2, List.mem_cons] at hl
        rcases hl with rfl | hl
        · exact h2
        · exact ih _ _ hl

/-- Every line emitted by the greedy loop either measures within `maxW`, or is
one of the remaining input words, or is the incoming partial line: a line can
only exceed the width if it was installed verbatim by `current_line = word`. -/
theorem wrapWords_mem (wf : List Char → ℚ) (maxW : ℚ) :
    ∀ ws cur l, l ∈ wrapWords wf maxW ws cur → wf l ≤ maxW ∨ l ∈ ws ∨ l = cur := by
  intro ws
  induction ws with
  | nil =>
    intro cur l hl
    by_cases h : cur = [] <;> simp [wrapWords, h] at hl
    exact Or.inr (Or.inr hl)
  | cons w ws ih =>
    intro cur l hl
    rw [wrapWords] at hl
    by_cases h2 : cur = []
    · subst h2
      rw [show joinWord [] w = w from by simp [joinWord]] at hl
      by_cases h1 : wf w ≤ maxW
      · rcases ih _ _ (by simpa [h1] using hl) with h | h | h
        · exact Or.inl h
        · exact Or.inr (Or.inl (List.mem_cons_of_mem _ h))
        · exact Or.inl (h ▸ h1)
      · rcases ih _ _ (by simpa [h1] using hl) with h | h | h
        · exact Or.inl h
        · exact Or.inr (Or.inl (List.mem_cons_of_mem _ h))
        · exact Or.inr (Or.inl (h ▸ List.mem_cons_self _ _))
    · by_cases h1 : wf (joinWord cur w) ≤ maxW
      · rcases ih _ _ (by simpa [h1] using hl) with h | h | h
        · exact Or.inl h
        · exact Or.inr (Or.inl (List.mem_cons_of_mem _ h))
        · exact Or.inl (h ▸ h1)
      · simp only [if_neg h1, if_neg h2, List.mem_cons] at hl
        rcases hl with rfl | hl
        · exact Or.inr (Or.inr rfl)
        · rcases ih _ _ hl with h | h | h
          · exact Or.inl h
          · exact Or.inr (Or.inl (List.mem_cons_of_mem _ h))
          · exact Or.inr (Or.inl (h ▸ List.mem_cons_self _ _))

/-- `all_lines` is a pure accumulator: the outer loop appends to it. -/
theorem wrapLoop_append (wf : List Char → ℚ) (maxW : ℚ) :
    ∀ ps acc, wrapLoop wf maxW ps acc = acc ++ wrapLoop wf maxW ps [] := by
  intro ps
  induction ps with
  | nil => intro acc; simp [wrapLoop]
  | cons p ps ih =>
    intro acc
    rw [wrapLoop, wrapLoop]
    by_cases h : pyStrip p = []
    · rw [if_pos h, if_pos h, List.nil_append, ih, ih [[]], List.append_assoc]
    · rw [if_neg h, if_neg h, List.nil_append, ih,
        ih (wrapWords wf maxW (pyWords (pyStrip p)) []), List.append_assoc]

/-- The paragraph loop, in closed form: each newline-separated piece of the
input contributes a gap marker when blank, or its greedily wrapped lines. -/
theorem wrap_text_eq_flatMap (wf : List Char → ℚ) (maxW : ℚ) (text : List Char) :
    wrap_text wf maxW text
      = (splitBy (fun c => c = '\n') text).flatMap
          (fun p => if pyStrip p = [] then [[]]
                    else wrapWords wf maxW (pyWords (pyStrip p)) []) := by
  rw [wrap_text]
  generalize splitBy (fun c => c = '\n') text = ps
  induction ps with
  | nil => simp [wrapLoop]
  | cons p ps ih =>
    rw [wrapLoop, List.flatMap_cons]
    by_cases h : pyStrip p = []
    · rw [if_pos h, if_pos h, List.nil_append, wrapLoop_append, ih]
    · rw [if_neg h, if_neg h, List.nil_append, wrapLoop_append, ih]

/-- `splitBy` always yields at least one piece, like Python's `str.split(sep)`. -/
theorem splitBy_ne_nil (p : Char → Bool) : ∀ s, splitBy p s ≠ [] := by
  intro s
  induction s with
  | nil => simp [splitBy]
  | cons c cs ih =>
    rw [splitBy]
    by_cases h : p c
    · simp [h]
    · rcases hs : splitBy p cs with _ | ⟨piece, rest⟩
      · exact absurd hs ih
      · simp [h, hs]

/-- No piece of `splitBy p s` contains a character satisfying `p`. -/
theorem mem_splitBy_clean (p : Char → Bool) :
    ∀ s piece, piece ∈ splitBy p s → ∀ c ∈ piece, p c = false := by
  intro s
  induction s with
  | nil => intro piece hp c hc; simp [splitBy] at hp; simp [hp] at hc
  | cons a as ih =>
    intro piece hp c hc
    rw [splitBy] at hp
    by_cases h : p a
    · simp only [if_pos h, List.mem_cons] at hp
      rcases hp with rfl | hp
      · simp at hc
      · exact ih piece hp c hc
    · rcases hs : splitBy p as with _ | ⟨hd, tl⟩
      · exact absurd hs (splitBy_ne_nil p as)
      · simp only [if_neg h, hs, List.mem_cons] at hp
        rcases hp with rfl | hp
        · rcases List.mem_cons.mp hc with rfl | hc
          · simpa using h
          · exact ih hd (hs ▸ List.mem_cons_self _ _) c hc
        · exact ih piece (hs ▸ List.mem_cons_of_mem _ hp) c hc

/-- Every word produced by Python's `str.split()` is non-empty and free of
whitespace characters. -/
theorem pyWords_clean (s w : List Char) (hw : w ∈ pyWords s) :
    w ≠ [] ∧ ∀ c ∈ w, isPyWs c = false := by
  rw [pyWords, List.mem_filter] at hw
  exact ⟨by simpa using hw.2, mem_splitBy_clean isPyWs s w hw.1⟩

/-- `dropWhile` is the identity when the head (if any) fails the predicate. -/
theorem dropWhile_eq_self (p : Char → Bool) (l : List Char)
    (h : ∀ c, l.head? = some c → p c = false) : l.dropWhile p = l := by
  cases l with
  | nil => rfl
  | cons c cs => simp [List.dropWhile_cons, h c rfl]

/-- A line whose first and last characters are not whitespace is unchanged by
Python's `str.strip()`. -/
theorem pyStrip_eq_self (l : List Char)
    (h1 : ∀ c, l.head? = some c → isPyWs c = false)
    (h2 : ∀ c, l.getLast? = some c → isPyWs c = false) : pyStrip l = l := by
  rw [pyStrip, dropWhile_eq_self isPyWs l h1, dropWhile_eq_self isPyWs l.reverse
    (fun c hc => h2 c (by rwa [List.head?_reverse] at hc)), List.reverse_reverse]

/-- A line has clean edges when its first and last characters (if any) are not
whitespace. -/
def edgeClean (l : List Char) : Prop :=
  (∀ c, l.head? = some c → isPyWs c = false) ∧ (∀ c, l.getLast? = some c → isPyWs c = false)

/-- A non-empty, whitespace-free word has clean edges. -/
theorem edgeClean_of_clean (w : List Char) (h : ∀ c ∈ w, isPyWs c = false) :
    edgeClean w := by
  refine ⟨fun c hc => h c (List.mem_of_mem_head? hc), fun c hc => h c ?_⟩
  rw [← List.head?_reverse] at hc
  exact List.mem_reverse.mp (List.mem_of_mem_head? hc)

/-- Joining a clean-edged current line with a non-empty whitespace-free word
yields a clean-edged line. -/
theorem edgeClean_joinWord (cur w : List Char)
    (hcur : cur = [] ∨ edgeClean cur) (hw : w ≠ []) (hwc : ∀ c ∈ w, isPyWs c = false) :
    edgeClean (joinWord cur w) := by
  rcases hcur with rfl | hcur
  · simpa [joinWord] using edgeClean_of_clean w hwc
  · by_cases hc : cur = []
    · simpa [joinWord, hc] using edgeClean_of_clean w hwc
    · rw [joinWord, if_neg hc]
      constructor
      · intro c h1
        rw [List.head?_append_of_ne_nil _ hc] at h1
        exact hcur.1 c h1
      · intro c h2
        rw [List.getLast?_append_of_ne_nil _ (by simp : ' ' :: w ≠ [])] at h2
        rcases w with _ | ⟨d, ds⟩
        · exact absurd rfl hw
        · rw [List.getLast?_cons_cons] at h2
          exact (edgeClean_of_clean (d :: ds) hwc).2 c h2

/-- Every line emitted by the greedy loop has clean edges, provided the input
words are non-empty and whitespace-free and the incoming partial line is empty
or clean-edged. -/
theorem wrapWords_edgeClean (wf : List Char → ℚ) (maxW : ℚ) :
    ∀ ws cur, (∀ w ∈ ws, w ≠ [] ∧ ∀ c ∈ w, isPyWs c = false) →
    (cur = [] ∨ edgeClean cur) →
    ∀ l ∈ wrapWords wf maxW ws cur, edgeClean l := by
  intro ws
  induction ws with
  | nil =>
    intro cur _ hcur l hl
    by_cases h : cur = [] <;> simp [wrapWords, h] at hl
    subst hl
    exact hcur.resolve_left h
  | cons w ws ih =>
    intro cur hws hcur l hl
    have hw := hws w (List.mem_cons_self _ _)
    have hws' : ∀ v ∈ ws, v ≠ [] ∧ ∀ c ∈ v, isPyWs c = false :=
      fun v hv => hws v (List.mem_cons_of_mem _ hv)
    have hjoin : edgeClean (joinWord cur w) := edgeClean_joinWord cur w hcur hw.1 hw.2
    have hwc : edgeClean w := edgeClean_of_clean w hw.2
    rw [wrapWords] at hl
    by_cases h2 : cur = []
    · subst h2
      rw [show joinWord [] w = w from by simp [joinWord]] at hl
      by_cases h1 : wf w ≤ maxW
      · exact ih _ hws' (Or.inr hwc) l (by simpa [h1] using hl)
      · exact ih _ hws' (Or.inr hwc) l (by simpa [h1] using hl)
    · by_cases h1 : wf (joinWord cur w) ≤ maxW
      · exact ih _ hws' (Or.inr hjoin) l (by simpa [h1] using hl)
      · simp only [if_neg h1, if_neg h2, List.mem_cons] at hl
        rcases hl with rfl | hl
        · exact hcur.resolve_left h2
        · exact ih _ hws' (Or.inr hwc) l hl

/-- The gap-marker count of the closed form: one marker per blank paragraph. -/
theorem flatMap_gap_count (wf : List Char → ℚ) (maxW : ℚ) :
    ∀ ps : List (List Char),
      (ps.flatMap (fun p => if pyStrip p = [] then [[]]
                            else wrapWords wf maxW (pyWords (pyStrip p)) [])).count []
        = (ps.filter (fun p => pyStrip p = [])).length := by
  intro ps
  induction ps with
  | nil => simp
  | cons p ps ih =>
    rw [List.flatMap_cons, List.count_append, ih]
    by_cases h : pyStrip p = []
    · simp [h, Nat.add_comm]
    · rw [if_neg h, List.count_eq_zero.mpr (fun hmem => wrapWords_ne_nil wf maxW _ _ _ hmem rfl)]
      simp [h, Nat.add_comm]

/-! ## The claims -/

/-- C1: every non-empty line emitted by `wrap_text` has measured width at most
`max_width`, except that a line may exceed the width only when it is a single
word of its source paragraph (an oversized word emitted as its own line). -/
theorem C1_wrap_width_bound (wf : List Char → ℚ) (maxW : ℚ) (text l : List Char)
    (hl : l ∈ wrap_text wf maxW text) (hne : l ≠ []) :
    wf l ≤ maxW
    ∨ (maxW < wf l
        ∧ ∃ p ∈ splitBy (fun c => c = '\n') text, l ∈ pyWords (pyStrip p)) := by
  rw [wrap_text_eq_flatMap, List.mem_flatMap] at hl
  obtain ⟨p, hp, hlp⟩ := hl
  by_cases hs : pyStrip p = []
  · rw [if_pos hs, List.mem_singleton] at hlp
    exact absurd hlp hne
  · rw [if_neg hs] at hlp
    rcases wrapWords_mem wf maxW _ _ _ hlp with h | h | h
    · exact Or.inl h
    · rcases le_or_lt (wf l) maxW with hle | hgt
      · exact Or.inl hle
      · exact Or.inr ⟨hgt, p, hp, h⟩
    · exact absurd h hne

/-- Witness for C1: wrapping the two-word text `hi yo` at width 20 emits the
line `hi yo`, which satisfies the width bound. -/
theorem C1_wrap_width_bound_witness :
    wfLen ['h', 'i', ' ', 'y', 'o'] ≤ 20
    ∨ (20 < wfLen ['h', 'i', ' ', 'y', 'o']
        ∧ ∃ p ∈ splitBy (fun c => c = '\n') ['h', 'i', ' ', 'y', 'o'],
            ['h', 'i', ' ', 'y', 'o'] ∈ pyWords (pyStrip p)) := by
  refine C1_wrap_width_bound wfLen 20 ['h', 'i', ' ', 'y', 'o'] ['h', 'i', ' ', 'y', 'o'] ?_ (by simp)
  simp [wrap_text, wrapLoop, wrapWords, splitBy, pyStrip, pyWords, joinWord, isPyWs, wfLen]
  norm_num

/-- C10: the wrapped output decomposes paragraph by paragraph, with exactly one
gap marker (the empty string) for each source line that is blank after
stripping, in order; wrapping the empty string yields the one-element sequence
holding a single gap marker; and every non-gap emitted line is unchanged by
stripping (no leading or trailing whitespace). -/
theorem C10_gap_markers (wf : List Char → ℚ) (maxW : ℚ) (text : List Char) :
    wrap_text wf maxW text
      = (splitBy (fun c => c = '\n') text).flatMap
          (fun p => if pyStrip p = [] then [[]]
                    else wrapWords wf maxW (pyWords (pyStrip p)) [])
    ∧ (wrap_text wf maxW text).count []
        = ((splitBy (fun c => c = '\n') text).filter (fun p => pyStrip p = [])).length
    ∧ wrap_text wf maxW [] = [[]]
    ∧ ∀ l ∈ wrap_text wf maxW text, l ≠ [] → pyStrip l = l := by
  refine ⟨wrap_text_eq_flatMap wf maxW text, ?_, rfl, ?_⟩
  · rw [wrap_text_eq_flatMap]
    exact flatMap_gap_count wf maxW _
  · intro l hl hne
    rw [wrap_text_eq_flatMap, List.mem_flatMap] at hl
    obtain ⟨p, _, hlp⟩ := hl
    by_cases hs : pyStrip p = []
    · rw [if_pos hs, List.mem_singleton] at hlp
      exact absurd hlp hne
    · rw [if_neg hs] at hlp
      have hclean := wrapWords_edgeClean wf maxW (pyWords (pyStrip p)) []
        (fun w hw => pyWords_clean _ w hw) (Or.inl rfl) l hlp
      exact pyStrip_eq_self l hclean.1 hclean.2

/-- Witness for C10: wrapping `A\n\nB` at width 5 yields exactly one gap
marker, and the emitted line `A` is unchanged by stripping. -/
theorem C10_gap_markers_witness :
    (wrap_text wfLen 5 ['A', '\n', '\n', 'B']).count [] = 1
    ∧ pyStrip ['A'] = ['A'] := by
  have h := C10_gap_markers wfLen 5 ['A', '\n', '\n', 'B']
  refine ⟨by rw [h.2.1]; rfl, h.2.2.2 ['A'] ?_ (by simp)⟩
  simp [wrap_text, wrapLoop, wrapWords, splitBy, pyStrip, pyWords, joinWord, isPyWs, wfLen]

/-- Closed form of the build loop: starting from finished pages `pgs` and an
empty current page, the loop plus the final save yields one page per image,
each holding exactly that image's draw, in input order. -/
theorem buildLoop_save (imgs : List Img) :
    ∀ pgs, saveCanvas (buildLoop imgs ⟨pgs, []⟩) = pgs ++ imgs.map (fun im => [imageOp im]) := by
  induction imgs with
  | nil => intro pgs; simp [buildLoop, saveCanvas]
  | cons im rest ih =>
    intro pgs
    cases rest with
    | nil => simp [buildLoop, emitOp, saveCanvas]
    | cons b bs =>
      have heq : buildLoop (im :: b :: bs) ⟨pgs, []⟩
          = buildLoop (b :: bs) ⟨pgs ++ [[imageOp im]], []⟩ := rfl
      rw [heq, ih (pgs ++ [[imageOp im]])]
      simp

/-- `create_basic_pdf` in closed form. -/
theorem create_basic_pdf_eq (imgs : List Img) :
    create_basic_pdf imgs = imgs.map (fun im => [imageOp im]) := by
  simpa [create_basic_pdf] using buildLoop_save imgs []

/-- C2: building a document from N ≥ 1 images yields exactly N pages, one page
per image (each page carrying that image's draw operation), in input order. -/
theorem C2_build_page_count (imgs : List Img) (_h : imgs ≠ []) :
    create_basic_pdf imgs = imgs.map (fun im => [imageOp im])
    ∧ (create_basic_pdf imgs).length = imgs.length := by
  refine ⟨create_basic_pdf_eq imgs, ?_⟩
  rw [create_basic_pdf_eq, List.length_map]

/-- Witness for C2: two images yield two pages in order. -/
theorem C2_build_page_count_witness :
    create_basic_pdf [⟨800, 600⟩, ⟨100, 400⟩]
      = [⟨800, 600⟩, ⟨100, 400⟩].map (fun im => [imageOp im])
    ∧ (create_basic_pdf [⟨800, 600⟩, ⟨100, 400⟩]).length = 2 := by
  have h := C2_build_page_count [⟨800, 600⟩, ⟨100, 400⟩] (by simp)
  exact ⟨h.1, by rw [h.2]; rfl⟩

/-- Counterexample to C3 as stated: building from the spec's own single
800×600 image yields one page whose only operation is the image draw placed
against the full 612×792 page (vertically centered at y = 166.5, i.e. the
drawable area is the whole 792pt page, not 692pt), and that operation is not a
text draw — no overlay text appears on the page. -/
theorem C3_counterexample :
    create_basic_pdf [⟨800, 600⟩] = [[DrawOp.image 0 (333/2) 612 459]]
    ∧ DrawOp.isText (DrawOp.image 0 (333/2) 612 459) = false := by
  constructor
  · simp [create_basic_pdf, buildLoop, emitOp, imageOp, computePlacement, saveCanvas,
      pageW, pageH]
    norm_num [min_def]
  · rfl

/-- C3 amended: the image-deck build pipeline never draws overlay text and has
no header band (its pages hold only full-page image draws); the header-band
variant — a reserved 100pt band at the top of the 612×792 page with the
overlay text block and caption always drawn — exists only in the annotation
pipeline's per-page overlay. -/
theorem C3_header_band_amended (imgs : List Img) (wf : List Char → ℚ)
    (text : List Char) (i total : ℕ) :
    ((create_basic_pdf imgs).all fun pg => pg.all fun op => !op.isText) = true
    ∧ DrawOp.rect 0 (pageH - bandH) pageW bandH ∈ overlayFor wf text i total
    ∧ DrawOp.drawString (pageW - 80) (pageH - 15) (pageCaption i total)
        ∈ overlayFor wf text i total := by
  refine ⟨?_, ?_, ?_⟩
  · rw [create_basic_pdf_eq]
    simp only [List.all_eq_true, List.mem_map]
    rintro pg ⟨im, _, rfl⟩
    simp [imageOp, DrawOp.isText]
  · simp [overlayFor]
  · simp [overlayFor]

/-- The annotation page loop in closed form: page `p` at offset `j + k` is
paired with the overlay for index `j + k`. -/
theorem annotateLoop_eq (wf : List Char → ℚ) (text : List Char) (total : ℕ) :
    ∀ ps j, annotateLoop wf text total j ps
      = (List.enumFrom j ps).map (fun pr => (pr.2, overlayFor wf text pr.1 total)) := by
  intro ps
  induction ps with
  | nil => intro j; rfl
  | cons p ps ih => intro j; rw [annotateLoop, List.enumFrom_cons, List.map_cons, ih]

/-- C4: annotating a K-page document yields K pages, the original pages in
their original order, and the overlay merged onto the page of 0-based index
`i` carries the caption `Page i+1 of K` where `K` is the input's own page
count; the caption draw is always among the overlay's operations. -/
theorem C4_annotate_preserves_pages (wf : List Char → ℚ) (text : List Char)
    (pages : List PageC) :
    (add_text_to_pdf wf text pages).length = pages.length
    ∧ (add_text_to_pdf wf text pages).map Prod.fst = pages
    ∧ add_text_to_pdf wf text pages
        = pages.enum.map (fun pr => (pr.2, overlayFor wf text pr.1 pages.length))
    ∧ ∀ i total, DrawOp.drawString (pageW - 80) (pageH - 15) (pageCaption i total)
        ∈ overlayFor wf text i total := by
  have hmain : add_text_to_pdf wf text pages
      = pages.enum.map (fun pr => (pr.2, overlayFor wf text pr.1 pages.length)) := by
    rw [add_text_to_pdf, annotateLoop_eq]
    rfl
  refine ⟨?_, ?_, hmain, fun i total => by simp [overlayFor]⟩
  · rw [hmain, List.length_map, List.enum_length]
  · rw [hmain, List.map_map]
    have : (Prod.fst ∘ fun pr : ℕ × PageC => (pr.2, overlayFor wf text pr.1 pages.length))
        = Prod.snd := by
      funext pr
      rfl
    rw [this, List.enum_map_snd]

/-- The batch loop in closed form: counter and output list accumulate one
entry per successfully parsed input, skipping failures. -/
theorem batchLoop_eq (wf : List Char → ℚ) (text : List Char) :
    ∀ inputs n acc, batchLoop wf text inputs n acc
      = (n + (inputs.filter fun f => f.parse.isSome).length,
         acc ++ inputs.filterMap fun f =>
           f.parse.map fun ps => (f.name, add_text_to_pdf wf text ps)) := by
  intro inputs
  induction inputs with
  | nil => intro n acc; simp [batchLoop]
  | cons f fs ih =>
    intro n acc
    cases hp : f.parse with
    | some ps =>
      rw [show batchLoop wf text (f :: fs) n acc
          = batchLoop wf text fs (n + 1) (acc ++ [(f.name, add_text_to_pdf wf text ps)]) from by
        rw [batchLoop, hp], ih]
      simp [List.filter_cons, List.filterMap_cons, hp, Nat.add_assoc, Nat.add_comm]
    | none =>
      rw [show batchLoop wf text (f :: fs) n acc = batchLoop wf text fs n acc from by
        rw [batchLoop, hp], ih]
      simp [List.filter_cons, List.filterMap_cons, hp]

/-- C7: the batch annotate action processes every input, reports as its
success count exactly the number of inputs that parsed as valid documents, and
writes output files exactly for the successfully parsed inputs (none for a
failing input), continuing past failures. -/
theorem C7_batch_partial_failure (wf : List Char → ℚ) (text : List Char)
    (inputs : List PdfInput) :
    annotate_pdfs_action wf text inputs
      = ((inputs.filter fun f => f.parse.isSome).length,
         inputs.filterMap fun f =>
           f.parse.map fun ps => (f.name, add_text_to_pdf wf text ps)) := by
  rw [annotate_pdfs_action, batchLoop_eq]
  simp

/-- C5: for positive image dimensions and a positive drawable rectangle, the
computed scale is `min(dw/iw, dh/ih)`, the scaled width and height never
exceed the drawable rectangle, and the scale is strictly positive. -/
theorem C5_scale_bounds (dw dh iw ih : ℚ)
    (hdw : 0 < dw) (hdh : 0 < dh) (hiw : 0 < iw) (hih : 0 < ih) :
    (computePlacement dw dh iw ih).scale = min (dw / iw) (dh / ih)
    ∧ (computePlacement dw dh iw ih).fw ≤ dw
    ∧ (computePlacement dw dh iw ih).fh ≤ dh
    ∧ 0 < (computePlacement dw dh iw ih).scale := by
  refine ⟨rfl, ?_, ?_, ?_⟩
  · show iw * min (dw / iw) (dh / ih) ≤ dw
    calc iw * min (dw / iw) (dh / ih) ≤ iw * (dw / iw) :=
          mul_le_mul_of_nonneg_left (min_le_left _ _) hiw.le
    _ = dw := by field_simp
  · show ih * min (dw / iw) (dh / ih) ≤ dh
    calc ih * min (dw / iw) (dh / ih) ≤ ih * (dh / ih) :=
          mul_le_mul_of_nonneg_left (min_le_right _ _) hih.le
    _ = dh := by field_simp
  · exact lt_min (div_pos hdw hiw) (div_pos hdh hih)

/-- Witness for C5 at the code's own geometry: a 800×600 image on the 612×792
page. -/
theorem C5_scale_bounds_witness :
    (computePlacement 612 792 800 600).scale = min (612 / 800 : ℚ) (792 / 600)
    ∧ (computePlacement 612 792 800 600).fw ≤ 612
    ∧ (computePlacement 612 792 800 600).fh ≤ 792
    ∧ 0 < (computePlacement 612 792 800 600).scale :=
  C5_scale_bounds 612 792 800 600 (by norm_num) (by norm_num) (by norm_num) (by norm_num)

/-- C6: the scaled placement preserves aspect ratio exactly in rational
arithmetic: scaled width / scaled height = original width / original height. -/
theorem C6_aspect_preserved (dw dh iw ih : ℚ)
    (hdw : 0 < dw) (hdh : 0 < dh) (hiw : 0 < iw) (hih : 0 < ih) :
    (computePlacement dw dh iw ih).fw / (computePlacement dw dh iw ih).fh = iw / ih := by
  have hs : 0 < min (dw / iw) (dh / ih) := lt_min (div_pos hdw hiw) (div_pos hdh hih)
  show iw * min (dw / iw) (dh / ih) / (ih * min (dw / iw) (dh / ih)) = iw / ih
  rw [mul_comm iw _, mul_comm ih _, mul_div_mul_left _ _ (ne_of_gt hs)]

/-- Witness for C6 at the code's own geometry. -/
theorem C6_aspect_preserved_witness :
    (computePlacement 612 792 800 600).fw / (computePlacement 612 792 800 600).fh
      = (800 : ℚ) / 600 :=
  C6_aspect_preserved 612 792 800 600 (by norm_num) (by norm_num) (by norm_num) (by norm_num)

/-- C8: the temp file created to hand pixel data to `drawImage` is gone after
the draw block on both the success path and the failure path (the unlink sits
in a `finally:`), and the block's outcome reflects the draw's. -/
theorem C8_temp_cleanup (drawOk : Bool) (t : ℕ) (tmps : List ℕ) (h : t ∉ tmps) :
    (drawImageStep drawOk t tmps).1 = tmps
    ∧ ((drawImageStep drawOk t tmps).2 = .ok () ↔ drawOk = true) := by
  constructor
  · show (tmps ++ [t]).erase t = tmps
    rw [List.erase_append_right _ h, List.erase_cons_head, List.append_nil]
  · by_cases hd : drawOk <;> simp [drawImageStep, hd]

/-- Witness for C8 on the failure path: even when the draw fails, the
temp-file list is restored. -/
theorem C8_temp_cleanup_witness :
    (drawImageStep false 0 []).1 = []
    ∧ ((drawImageStep false 0 []).2 = .ok () ↔ false = true) :=
  C8_temp_cleanup false 0 [] (by simp)

/-- A one-file store: a valid source PDF `a` in directory `d`. -/
def fsEx : FPath → Option FileVal := fun p =>
  if p = (['d'], ['a']) then some (.pdfSource [0]) else none

/-- Counterexample to C9 as stated: when the chosen output directory is the
input's own directory, the output path `output_dir / input_name` coincides
with the input path and the write replaces the bytes at the input path. -/
theorem C9_counterexample :
    annotateFileStep wfLen ['h', 'i'] fsEx (['d'], ['a']) ['d'] (['d'], ['a'])
      ≠ fsEx (['d'], ['a']) := by
  simp [annotateFileStep, fsEx, parseFile]

/-- C9 amended: provided the chosen output directory is not the input's own
directory (so that `output_dir / input_name` is a different path), the bytes
at the input path are unchanged, and on successful parse the result is written
as a brand-new byte stream at the output path. -/
theorem C9_no_inplace_overwrite_amended (wf : List Char → ℚ) (text : List Char)
    (fs : FPath → Option FileVal) (inPath : FPath) (outDir : List Char)
    (h : outDir ≠ inPath.1) :
    annotateFileStep wf text fs inPath outDir inPath = fs inPath
    ∧ ∀ ps, parseFile (fs inPath) = some ps →
        annotateFileStep wf text fs inPath outDir (outDir, inPath.2)
          = some (.annotated (add_text_to_pdf wf text ps)) := by
  have hne : ¬(inPath = (outDir, inPath.2)) := by
    intro he
    exact h (congrArg Prod.fst he).symm
  constructor
  · cases hp : parseFile (fs inPath) with
    | some ps => simp [annotateFileStep, hp, hne]
    | none => simp [annotateFileStep, hp]
  · intro ps hp
    simp [annotateFileStep, hp]

/-- Witness for C9's amended statement: output directory `e` differs from the
input's directory `d`; the input file is untouched and the annotated output
appears at `e/a`. -/
theorem C9_no_inplace_overwrite_amended_witness :
    annotateFileStep wfLen ['h', 'i'] fsEx (['d'], ['a']) ['e'] (['d'], ['a'])
      = fsEx (['d'], ['a'])
    ∧ annotateFileStep wfLen ['h', 'i'] fsEx (['d'], ['a']) ['e'] (['e'], ['a'])
      = some (.annotated (add_text_to_pdf wfLen ['h', 'i'] [0])) := by
  have h := C9_no_inplace_overwrite_amended wfLen ['h', 'i'] fsEx (['d'], ['a']) ['e']
    (by decide)
  exact ⟨h.1, h.2 [0] (by decide)⟩

end ImgPdf
